import Mathlib

/-!
Verification of the `RollingBuffer` ring buffer (src/src/lib.rs).

The Rust type `RollingBuffer<const S: usize, T: Default + Copy>` holds a
fixed array `data: [T; S]` and two cursors `write_head`, `read_head`.
We embed it shallowly: the array becomes a `List T` (whose length is `S`
in every reachable state), the cursors become `Nat`, and the const
generic `S` becomes an explicit `Nat` argument of every operation.
Rust's `&T` results are modelled by returning the element value (the
element type is `Copy` in the source); a fallible array access is
modelled with the `l[i]?` lookup / `List.set`, and we prove separately that in
reachable states every access is in bounds.
-/

namespace RollingTB

variable {T : Type}

/-- State of `RollingBuffer<S, T>`: backing storage plus the two cursors. -/
structure RollingBuffer (T : Type) where
  data : List T
  write_head : Nat
  read_head : Nat
  deriving DecidableEq

/-- `fn increase_head(index: usize) -> usize { let t = index + 1; if t == S { 0 } else { t } }`
(the local `t = index + 1` of the source is inlined). -/
def increase_head (S idx : Nat) : Nat :=
  if idx + 1 = S then 0 else idx + 1

/-- `pub const fn new(def: T) -> Self` : all `S` slots filled with `d`, cursors `0`. -/
def new (S : Nat) (d : T) : RollingBuffer T :=
  ⟨List.replicate S d, 0, 0⟩

/-- `pub fn write(&mut self, data: T) -> bool`: checked write.
Computes `next = increase_head(write_head)`; if `next == read_head` the
buffer is full and nothing happens (`false`); otherwise stores at
`write_head`, advances it to `next`, returns `true`. -/
def write (S : Nat) (b : RollingBuffer T) (v : T) : Bool × RollingBuffer T :=
  let next := increase_head S b.write_head
  if next = b.read_head then
    (false, b)
  else
    (true, ⟨b.data.set b.write_head v, next, b.read_head⟩)

/-- `pub unsafe fn write_unchecked(&mut self, data: T)`: stores at
`write_head` and advances `write_head`, unconditionally. -/
def write_unchecked (S : Nat) (b : RollingBuffer T) (v : T) : RollingBuffer T :=
  ⟨b.data.set b.write_head v, increase_head S b.write_head, b.read_head⟩

/-- `pub fn read(&mut self) -> Option<&T>`: if `read_head != write_head`,
returns the element at `read_head` and advances `read_head`; else `None`. -/
def read (S : Nat) (b : RollingBuffer T) : Option T × RollingBuffer T :=
  if b.read_head ≠ b.write_head then
    let next := increase_head S b.read_head
    (b.data[b.read_head]?, ⟨b.data, b.write_head, next⟩)
  else
    (none, b)

/-- `pub unsafe fn read_unchecked(&mut self) -> Option<&T>`: same test as
`read`, computing the result before advancing `read_head`. -/
def read_unchecked (S : Nat) (b : RollingBuffer T) : Option T × RollingBuffer T :=
  if b.read_head ≠ b.write_head then
    (b.data[b.read_head]?, ⟨b.data, b.write_head, increase_head S b.read_head⟩)
  else
    (none, b)

/-! ## Ghost functions: element count, slot addressing, observable contents.
These are specification-side functions (not in the source); they are written
with branches instead of `%` so that `omega` can discharge the arithmetic. -/

/-- Number of unread elements held when the cursors are `r`, `w` (both `< S`):
the distance from `r` forward to `w` around the ring. -/
def bcount (S r w : Nat) : Nat :=
  if r ≤ w then w - r else S + w - r

/-- Physical index of the `i`-th unread element, counting from `read_head = r`. -/
def slot (S r i : Nat) : Nat :=
  if r + i < S then r + i else r + i - S

/-- The observable contents of the buffer: the unread elements in FIFO
order, oldest first (each wrapped in `Option` by the `List.get?` lookup). -/
def contents (S : Nat) (b : RollingBuffer T) : List (Option T) :=
  (List.range (bcount S b.read_head b.write_head)).map
    (fun i => b.data[slot S b.read_head i]?)

/-! ## Arithmetic lemmas about `increase_head`, `bcount`, `slot`. -/

theorem increase_head_lt {S x : Nat} (hS : 0 < S) (hx : x < S) :
    increase_head S x < S := by
  unfold increase_head
  split <;> omega

theorem increase_head_eq_mod {S x : Nat} (hx : x < S) :
    increase_head S x = (x + 1) % S := by
  unfold increase_head
  split
  · next h => rw [h, Nat.mod_self]
  · next h => rw [Nat.mod_eq_of_lt (by omega)]

theorem bcount_lt {S r w : Nat} (hr : r < S) (hw : w < S) :
    bcount S r w < S := by
  unfold bcount ; split <;> omega

theorem bcount_eq_zero_iff {S r w : Nat} (hr : r < S) (hw : w < S) :
    bcount S r w = 0 ↔ r = w := by
  unfold bcount ; split <;> omega

theorem slot_lt {S r i : Nat} (hr : r < S) (hi : i < S) :
    slot S r i < S := by
  unfold slot ; split <;> omega

theorem slot_zero {S r : Nat} (hr : r < S) : slot S r 0 = r := by
  unfold slot ; split <;> omega

theorem slot_inj {S r i j : Nat} (hr : r < S) (hi : i < S) (hj : j < S)
    (h : slot S r i = slot S r j) : i = j := by
  unfold slot at h ; split at h <;> split at h <;> omega

/-- The full test of the checked write matches `bcount = S - 1`. -/
theorem full_iff {S r w : Nat} (hS : 0 < S) (hr : r < S) (hw : w < S) :
    increase_head S w = r ↔ bcount S r w = S - 1 := by
  unfold increase_head bcount
  split <;> split <;> omega

/-- Writing stores into the slot just past the last unread element. -/
theorem slot_bcount {S r w : Nat} (hr : r < S) (hw : w < S) :
    slot S r (bcount S r w) = w := by
  unfold slot bcount
  split <;> split <;> omega

/-- A successful write advances `bcount` by one. -/
theorem bcount_write {S r w : Nat} (hS : 0 < S) (hr : r < S) (hw : w < S)
    (h : increase_head S w ≠ r) :
    bcount S r (increase_head S w) = bcount S r w + 1 := by
  unfold bcount increase_head at *
  split_ifs at h ⊢ <;> omega

/-- A successful read decreases `bcount` by one. -/
theorem bcount_read {S r w : Nat} (hS : 0 < S) (hr : r < S) (hw : w < S)
    (h : r ≠ w) :
    bcount S (increase_head S r) w = bcount S r w - 1 := by
  unfold increase_head bcount
  split <;> split <;> split <;> omega

/-- Advancing the read cursor shifts the slot map by one. -/
theorem slot_increase {S r i : Nat} (hr : r < S) (hi : i < S) :
    slot S (increase_head S r) i = slot S r (i + 1) := by
  unfold increase_head slot
  split <;> split <;> split <;> omega

/-! ## Lemmas about `contents`. -/

theorem contents_length (S : Nat) (b : RollingBuffer T) :
    (contents S b).length = bcount S b.read_head b.write_head := by
  simp [contents]

theorem contents_eq_nil {S : Nat} {b : RollingBuffer T}
    (hr : b.read_head < S) (hw : b.write_head < S)
    (h : b.read_head = b.write_head) : contents S b = [] := by
  unfold contents
  rw [(bcount_eq_zero_iff hr hw).2 h]
  simp

theorem contents_new (S : Nat) (d : T) : contents S (new S d) = [] := by
  simp [contents, new, bcount]

/-- A nonempty buffer's contents decompose as the element under the read
cursor followed by the contents after the cursor advances. -/
theorem contents_read_cons {S : Nat} {b : RollingBuffer T}
    (hr : b.read_head < S) (hw : b.write_head < S)
    (h : b.read_head ≠ b.write_head) :
    contents S b =
      b.data[b.read_head]? ::
        contents S ⟨b.data, b.write_head, increase_head S b.read_head⟩ := by
  have hS : 0 < S := Nat.pos_of_ne_zero (by omega)
  have hn : bcount S b.read_head b.write_head ≠ 0 :=
    fun e => h ((bcount_eq_zero_iff hr hw).1 e)
  obtain ⟨n, hn⟩ : ∃ n, bcount S b.read_head b.write_head = n + 1 :=
    ⟨bcount S b.read_head b.write_head - 1, by omega⟩
  have hcount : bcount S (increase_head S b.read_head) b.write_head = n := by
    rw [bcount_read hS hr hw h, hn]
    omega
  unfold contents
  simp only [hn, hcount]
  rw [List.range_succ_eq_map, List.map_cons, List.map_map]
  refine congrArg₂ _ (by rw [slot_zero hr]) ?_
  refine List.map_congr_left (fun i hi => ?_)
  have hiS : i < S := by
    have := bcount_lt hr hw
    simp only [List.mem_range] at hi
    omega
  simp only [Function.comp_apply]
  rw [slot_increase hr hiS]

/-- A store at the write cursor followed by a cursor advance appends the
value to the contents, provided the buffer was not full. -/
theorem contents_write_concat {S : Nat} {b : RollingBuffer T} {v : T}
    (hlen : b.data.length = S) (hr : b.read_head < S) (hw : b.write_head < S)
    (h : increase_head S b.write_head ≠ b.read_head) :
    contents S ⟨b.data.set b.write_head v, increase_head S b.write_head, b.read_head⟩ =
      contents S b ++ [some v] := by
  have hS : 0 < S := Nat.pos_of_ne_zero (by omega)
  unfold contents
  simp only
  rw [bcount_write hS hr hw h, List.range_succ, List.map_append, List.map_cons]
  refine congrArg₂ _ ?_ ?_
  · refine List.map_congr_left (fun i hi => ?_)
    simp only [List.mem_range] at hi
    have hiS : i < S := by
      have := bcount_lt hr hw
      omega
    have hne : b.write_head ≠ slot S b.read_head i := by
      intro e
      have := slot_inj hr (bcount_lt hr hw) hiS
        ((slot_bcount hr hw).trans e)
      omega
    rw [List.getElem?_set_ne hne]
  · rw [slot_bcount hr hw, List.getElem?_set_eq_of_lt v (by omega)]
    simp

/-! ## The cursor/length invariant. -/

/-- Structural invariant of every reachable state: the storage has length
`S` and both cursors are in `[0, S)` (Invariant A of the spec). -/
def Inv (S : Nat) (b : RollingBuffer T) : Prop :=
  b.data.length = S ∧ b.read_head < S ∧ b.write_head < S

theorem Inv_new {S : Nat} (hS : 0 < S) (d : T) : Inv S (new S d) := by
  refine ⟨by simp [new], hS, hS⟩

theorem Inv_write {S : Nat} {b : RollingBuffer T} (h : Inv S b) (v : T) :
    Inv S (write S b v).2 := by
  obtain ⟨hlen, hr, hw⟩ := h
  have hS : 0 < S := by omega
  simp only [write]
  split
  · exact ⟨hlen, hr, hw⟩
  · exact ⟨by simpa using hlen, hr, increase_head_lt hS hw⟩

theorem Inv_write_unchecked {S : Nat} {b : RollingBuffer T} (h : Inv S b) (v : T) :
    Inv S (write_unchecked S b v) := by
  obtain ⟨hlen, hr, hw⟩ := h
  have hS : 0 < S := by omega
  exact ⟨by simpa [write_unchecked] using hlen, hr, increase_head_lt hS hw⟩

theorem Inv_read {S : Nat} {b : RollingBuffer T} (h : Inv S b) :
    Inv S (read S b).2 := by
  obtain ⟨hlen, hr, hw⟩ := h
  have hS : 0 < S := by omega
  simp only [read]
  split
  · exact ⟨hlen, increase_head_lt hS hr, hw⟩
  · exact ⟨hlen, hr, hw⟩

theorem Inv_read_unchecked {S : Nat} {b : RollingBuffer T} (h : Inv S b) :
    Inv S (read_unchecked S b).2 := by
  obtain ⟨hlen, hr, hw⟩ := h
  have hS : 0 < S := by omega
  simp only [read_unchecked]
  split
  · exact ⟨hlen, increase_head_lt hS hr, hw⟩
  · exact ⟨hlen, hr, hw⟩

/-! ## Client programs: sequences of checked operations, and the ideal
bounded FIFO queue they are supposed to implement. -/

/-- A checked operation issued by a client: `wr v` is `write(v)`, `rd` is `read()`. -/
inductive Op (T : Type) where
  | wr (v : T)
  | rd
  deriving DecidableEq

/-- Observable outcome of one checked operation. -/
inductive Out (T : Type) where
  | wrote (ok : Bool)
  | got (v : Option T)
  deriving DecidableEq

/-- One checked operation against the buffer. -/
def step (S : Nat) (b : RollingBuffer T) : Op T → Out T × RollingBuffer T
  | Op.wr v => (Out.wrote (write S b v).1, (write S b v).2)
  | Op.rd => (Out.got (read S b).1, (read S b).2)

/-- Run a list of checked operations, collecting every outcome. -/
def run (S : Nat) : RollingBuffer T → List (Op T) → List (Out T) × RollingBuffer T
  | b, [] => ([], b)
  | b, op :: ops =>
    let s := step S b op
    let rest := run S s.2 ops
    (s.1 :: rest.1, rest.2)

/-- Modelled from the spec (sections 4 and 8): the ideal FIFO queue with
usable capacity `cap = S - 1`. A write appends to the back when the queue
is not yet at capacity and is rejected otherwise; a read removes and
returns the front element, oldest first, or reports "no value". -/
def specStep (cap : Nat) (q : List T) : Op T → Out T × List T
  | Op.wr v => if q.length < cap then (Out.wrote true, q ++ [v]) else (Out.wrote false, q)
  | Op.rd =>
    match q with
    | [] => (Out.got none, [])
    | x :: xs => (Out.got (some x), xs)

/-- Run a list of operations against the ideal FIFO queue. -/
def specRun (cap : Nat) : List T → List (Op T) → List (Out T) × List T
  | q, [] => ([], q)
  | q, op :: ops =>
    let s := specStep cap q op
    let rest := specRun cap s.2 ops
    (s.1 :: rest.1, rest.2)

/-! ## Simulation: every checked operation on the buffer behaves exactly
like the same operation on the ideal FIFO queue of capacity `S - 1`,
under the abstraction `contents S b = q.map some`. -/

theorem step_sim {S : Nat} {b : RollingBuffer T} {q : List T}
    (hInv : Inv S b) (habs : contents S b = q.map some) (op : Op T) :
    (step S b op).1 = (specStep (S - 1) q op).1 ∧
      Inv S (step S b op).2 ∧
      contents S (step S b op).2 = ((specStep (S - 1) q op).2).map some := by
  obtain ⟨hlen, hr, hw⟩ := hInv
  have hS : 0 < S := by omega
  have hq : q.length = bcount S b.read_head b.write_head := by
    have h1 := contents_length S b
    rw [habs, List.length_map] at h1
    omega
  cases op with
  | wr v =>
    by_cases hfull : increase_head S b.write_head = b.read_head
    · have hqlen : ¬ q.length < S - 1 := by
        have := (full_iff hS hr hw).1 hfull
        omega
      have hwr : write S b v = (false, b) := by
        simp only [write, if_pos hfull]
      simp only [step, hwr, specStep, if_neg hqlen]
      exact ⟨trivial, ⟨hlen, hr, hw⟩, habs⟩
    · have hqlen : q.length < S - 1 := by
        have h1 : bcount S b.read_head b.write_head ≠ S - 1 :=
          fun e => hfull ((full_iff hS hr hw).2 e)
        have h2 := bcount_lt hr hw
        omega
      simp only [step, write, specStep, if_neg hfull, if_pos hqlen]
      refine ⟨trivial, ⟨by simpa using hlen, hr, increase_head_lt hS hw⟩, ?_⟩
      rw [contents_write_concat hlen hr hw hfull, habs]
      simp
  | rd =>
    by_cases hemp : b.read_head = b.write_head
    · have hq0 : q = [] := by
        have := contents_eq_nil hr hw hemp
        rw [habs] at this
        simpa using this
      subst hq0
      simp only [step, read, hemp, ne_eq, not_true_eq_false, if_neg, specStep,
        ite_false]
      exact ⟨trivial, ⟨hlen, hr, hw⟩, habs⟩
    · have hcons := contents_read_cons hr hw hemp
      cases q with
      | nil =>
        rw [habs] at hcons
        simp at hcons
      | cons x xs =>
        rw [habs] at hcons
        simp only [List.map_cons] at hcons
        obtain ⟨hx, hxs⟩ := List.cons_eq_cons.mp hcons
        simp only [step, read, if_pos hemp, specStep, ← hx]
        exact ⟨trivial, ⟨hlen, increase_head_lt hS hr, hw⟩, hxs.symm⟩

theorem run_sim {S : Nat} : ∀ (ops : List (Op T)) (b : RollingBuffer T) (q : List T),
    Inv S b → contents S b = q.map some →
    (run S b ops).1 = (specRun (S - 1) q ops).1 := by
  intro ops
  induction ops with
  | nil => intro b q _ _ ; rfl
  | cons op ops ih =>
    intro b q hInv habs
    obtain ⟨h1, h2, h3⟩ := step_sim hInv habs op
    simp only [run, specRun]
    rw [h1]
    exact congrArg _ (ih _ _ h2 h3)

/-! ## Sequential write and read batches. -/

/-- Perform the checked writes of `vs` in order, collecting each Boolean result. -/
def writeAll (S : Nat) : RollingBuffer T → List T → List Bool × RollingBuffer T
  | b, [] => ([], b)
  | b, v :: vs =>
    let s := write S b v
    let rest := writeAll S s.2 vs
    (s.1 :: rest.1, rest.2)

/-- Perform `n` checked reads in order, collecting each optional result. -/
def readN (S : Nat) : Nat → RollingBuffer T → List (Option T) × RollingBuffer T
  | 0, b => ([], b)
  | n + 1, b =>
    let s := read S b
    let rest := readN S n s.2
    (s.1 :: rest.1, rest.2)

theorem writeAll_cons (S : Nat) (b : RollingBuffer T) (v : T) (vs : List T) :
    writeAll S b (v :: vs) =
      ((write S b v).1 :: (writeAll S (write S b v).2 vs).1,
        (writeAll S (write S b v).2 vs).2) := rfl

/-- A write that is not at the full boundary succeeds and advances. -/
theorem write_step (S : Nat) {b : RollingBuffer T} (v : T)
    (hr : b.read_head = 0) (hw : b.write_head + 1 < S) :
    write S b v =
      (true, ⟨b.data.set b.write_head v, b.write_head + 1, b.read_head⟩) := by
  have hinc : increase_head S b.write_head = b.write_head + 1 := by
    unfold increase_head ; split <;> omega
  have hne : increase_head S b.write_head ≠ b.read_head := by omega
  rw [write]
  simp only [hinc]
  rw [if_neg (hinc ▸ hne)]

/-- Writing values from a state with `read_head = 0` while they fit below
capacity: every write succeeds, `write_head` advances by the batch length. -/
theorem writeAll_ok {S : Nat} : ∀ (vs : List T) (b : RollingBuffer T),
    b.read_head = 0 → b.write_head + vs.length < S →
    (writeAll S b vs).2.read_head = 0 ∧
      (writeAll S b vs).2.write_head = b.write_head + vs.length ∧
      (writeAll S b vs).1 = List.replicate vs.length true := by
  intro vs
  induction vs with
  | nil => intro b hr hw ; exact ⟨hr, by simp [writeAll], by simp [writeAll]⟩
  | cons v vs ih =>
    intro b hr hw
    simp only [List.length_cons] at hw
    have hwr := write_step S v hr (by omega)
    obtain ⟨ih1, ih2, ih3⟩ :=
      ih ⟨b.data.set b.write_head v, b.write_head + 1, b.read_head⟩ hr
        (show b.write_head + 1 + vs.length < S by omega)
    have hsnd : (writeAll S b (v :: vs)).2 =
        (writeAll S (⟨b.data.set b.write_head v, b.write_head + 1, b.read_head⟩ :
          RollingBuffer T) vs).2 := by
      rw [writeAll_cons, hwr]
    have hfst : (writeAll S b (v :: vs)).1 =
        true :: (writeAll S (⟨b.data.set b.write_head v, b.write_head + 1, b.read_head⟩ :
          RollingBuffer T) vs).1 := by
      rw [writeAll_cons, hwr]
    refine ⟨hsnd ▸ ih1, ?_, ?_⟩
    · rw [hsnd, ih2]
      simp ; omega
    · rw [hfst, ih3]
      simp [List.replicate_succ]

/-- Writing exactly up to the declared size from a state with
`read_head = 0`: all but the last write succeed and the last one fails. -/
theorem writeAll_fill {S : Nat} : ∀ (vs : List T) (b : RollingBuffer T),
    b.read_head = 0 → b.write_head + vs.length = S → vs ≠ [] →
    (writeAll S b vs).1 = List.replicate (vs.length - 1) true ++ [false] := by
  intro vs
  induction vs with
  | nil => intro b _ _ hne ; exact absurd rfl hne
  | cons v vs ih =>
    intro b hr hw _
    simp only [List.length_cons] at hw
    cases vs with
    | nil =>
      have hinc : increase_head S b.write_head = 0 := by
        unfold increase_head
        simp only [List.length_nil] at hw
        split <;> omega
      rw [writeAll_cons, write]
      simp only [hinc]
      rw [if_pos hr.symm]
      simp [writeAll]
    | cons v2 vs2 =>
      simp only [List.length_cons] at hw
      have hwr := write_step S v hr (by omega)
      have ihr := ih ⟨b.data.set b.write_head v, b.write_head + 1, b.read_head⟩ hr
        (show b.write_head + 1 + (v2 :: vs2).length = S by
          simp only [List.length_cons] at hw ⊢ ; omega) (by simp)
      have hfst : (writeAll S b (v :: v2 :: vs2)).1 =
          true :: (writeAll S (⟨b.data.set b.write_head v, b.write_head + 1, b.read_head⟩ :
            RollingBuffer T) (v2 :: vs2)).1 := by
        rw [writeAll_cons, hwr]
      rw [hfst, ihr]
      simp [List.replicate_succ]

/-- Reading `n` times while `n` elements remain ahead of the read cursor
advances only the read cursor, by exactly `n`. -/
theorem readN_drain {S : Nat} : ∀ (n : Nat) (b : RollingBuffer T),
    b.read_head + n ≤ b.write_head → b.write_head < S →
    (readN S n b).2 = ⟨b.data, b.write_head, b.read_head + n⟩ := by
  intro n
  induction n with
  | zero => intro b _ _ ; rfl
  | succ n ih =>
    intro b hn hw
    have hne : b.read_head ≠ b.write_head := by omega
    have hinc : increase_head S b.read_head = b.read_head + 1 := by
      unfold increase_head ; split <;> omega
    have hrd : read S b = (b.data[b.read_head]?, ⟨b.data, b.write_head, b.read_head + 1⟩) := by
      simp only [read, if_pos hne, hinc]
    have ihr := ih ⟨b.data, b.write_head, b.read_head + 1⟩ (by simp ; omega) hw
    simp only [readN, hrd, ihr]
    simp ; omega

/-- Reads on an empty buffer return nothing and change nothing, forever. -/
theorem readN_empty {S : Nat} : ∀ (n : Nat) (b : RollingBuffer T),
    b.read_head = b.write_head →
    readN S n b = (List.replicate n none, b) := by
  intro n
  induction n with
  | zero => intro b _ ; rfl
  | succ n ih =>
    intro b h
    have hrd : read S b = (none, b) := by simp [read, h]
    simp [readN, hrd, ih b h, List.replicate_succ]

/-! ## Reachability by arbitrary call sequences. -/

/-- The states reachable from `new S d` by any sequence of the four
operations (checked or unchecked). -/
inductive Reachable (S : Nat) (d : T) : RollingBuffer T → Prop where
  | init : Reachable S d (new S d)
  | stepW (b : RollingBuffer T) (v : T) :
      Reachable S d b → Reachable S d (write S b v).2
  | stepR (b : RollingBuffer T) :
      Reachable S d b → Reachable S d (read S b).2
  | stepWU (b : RollingBuffer T) (v : T) :
      Reachable S d b → Reachable S d (write_unchecked S b v)
  | stepRU (b : RollingBuffer T) :
      Reachable S d b → Reachable S d (read_unchecked S b).2

/-- Invariant A holds in every reachable state, along with the storage
keeping its construction length. -/
theorem reachable_Inv {S : Nat} {d : T} {b : RollingBuffer T} (hS : 0 < S)
    (h : Reachable S d b) : Inv S b := by
  induction h with
  | init => exact Inv_new hS d
  | stepW b v _ ih => exact Inv_write ih v
  | stepR b _ ih => exact Inv_read ih
  | stepWU b v _ ih => exact Inv_write_unchecked ih v
  | stepRU b _ ih => exact Inv_read_unchecked ih

/-- Iterate `write_unchecked` with the fill value `n` times. -/
def wuN (S : Nat) (d : T) : Nat → RollingBuffer T → RollingBuffer T
  | 0, b => b
  | n + 1, b => wuN S d n (write_unchecked S b d)

theorem wuN_reachable {S : Nat} {d : T} : ∀ (n : Nat) (b : RollingBuffer T),
    Reachable S d b → Reachable S d (wuN S d n b) := by
  intro n
  induction n with
  | zero => intro b h ; exact h
  | succ n ih => intro b h ; exact ih _ (Reachable.stepWU b d h)

theorem readN_reachable {S : Nat} {d : T} : ∀ (n : Nat) (b : RollingBuffer T),
    Reachable S d b → Reachable S d (readN S n b).2 := by
  intro n
  induction n with
  | zero => intro b h ; exact h
  | succ n ih => intro b h ; exact ih _ (Reachable.stepR b h)

/-- Iterated unchecked writes rotate the write cursor by `n` modulo `S`
and never touch the read cursor. -/
theorem wuN_heads (S : Nat) (d : T) : ∀ (n : Nat) (b : RollingBuffer T),
    b.write_head < S →
    (wuN S d n b).write_head = (b.write_head + n) % S ∧
      (wuN S d n b).read_head = b.read_head := by
  intro n
  induction n with
  | zero =>
    intro b hw
    exact ⟨(Nat.mod_eq_of_lt hw).symm, rfl⟩
  | succ n ih =>
    intro b hw
    have hS : 0 < S := by omega
    have hw' : (write_unchecked S b d).write_head < S := increase_head_lt hS hw
    obtain ⟨ih1, ih2⟩ := ih (write_unchecked S b d) hw'
    constructor
    · rw [wuN, ih1]
      show (increase_head S b.write_head + n) % S = _
      rw [increase_head_eq_mod hw, Nat.mod_add_mod]
      congr 1
      omega
    · rw [wuN, ih2]
      rfl

/-! ## The claims. -/

/-- C1: for every capacity `S ≥ 1`, writing any `S` values into a freshly
constructed buffer yields exactly `S - 1` successes (`true`) followed by
one failure (`false`). -/
theorem capacity_property (S : Nat) (d : T) (vs : List T)
    (hS : 0 < S) (hlen : vs.length = S) :
    (writeAll S (new S d) vs).1 = List.replicate (S - 1) true ++ [false] := by
  have hvs : vs ≠ [] := by
    intro e ; subst e ; simp at hlen ; omega
  have h := writeAll_fill vs (new S d) rfl
    (show (new S d).write_head + vs.length = S by show 0 + vs.length = S ; omega) hvs
  rw [h, hlen]

/-- C1 witness: at `S = 3` the three checked writes return
`true, true, false`. -/
theorem capacity_property_witness :
    0 < 3 ∧ ([10, 20, 30] : List Nat).length = 3 ∧
      (writeAll 3 (new 3 (0 : Nat)) [10, 20, 30]).1 =
        List.replicate (3 - 1) true ++ [false] :=
  ⟨by decide, by decide, capacity_property 3 0 [10, 20, 30] (by decide) (by decide)⟩

/-- C2: every sequence of checked writes and reads against a freshly
constructed buffer of size `S ≥ 1` produces, outcome for outcome, the
behaviour of the ideal FIFO queue of capacity `S - 1`: accepted writes
are read back in exactly the order written, through arbitrarily many
fill/drain cycles and cursor wraparounds. -/
theorem fifo_refinement (S : Nat) (d : T) (ops : List (Op T)) (hS : 0 < S) :
    (run S (new S d) ops).1 = (specRun (S - 1) [] ops).1 :=
  run_sim ops (new S d) [] (Inv_new hS d) (by simp [contents_new])

/-- C2 witness: a concrete interleaving at `S = 3` that wraps the cursors,
checked against the ideal queue of capacity `2`. -/
theorem fifo_refinement_witness :
    0 < 3 ∧
      (run 3 (new 3 (0 : Nat))
          [Op.wr 1, Op.wr 2, Op.wr 3, Op.rd, Op.wr 4, Op.rd, Op.rd, Op.rd,
            Op.wr 5, Op.wr 6, Op.rd, Op.rd]).1 =
        (specRun (3 - 1) []
          [Op.wr 1, Op.wr 2, Op.wr 3, Op.rd, Op.wr 4, Op.rd, Op.rd, Op.rd,
            Op.wr 5, Op.wr 6, Op.rd, Op.rd]).1 :=
  ⟨by decide,
    fifo_refinement 3 0
      [Op.wr 1, Op.wr 2, Op.wr 3, Op.rd, Op.wr 4, Op.rd, Op.rd, Op.rd,
        Op.wr 5, Op.wr 6, Op.rd, Op.rd] (by decide)⟩

/-- C3: on any state whose cursors satisfy the full condition
`(write_head + 1) % S = read_head`, the checked write returns `false`
and returns the state completely unchanged. -/
theorem write_full_noop (S : Nat) (b : RollingBuffer T) (v : T)
    (hw : b.write_head < S) (hfull : (b.write_head + 1) % S = b.read_head) :
    write S b v = (false, b) := by
  have h : increase_head S b.write_head = b.read_head := by
    rw [increase_head_eq_mod hw] ; exact hfull
  simp [write, h]

/-- C3 witness: the full state reached after writing twice into a size-3
buffer rejects a further write untouched. -/
theorem write_full_noop_witness :
    ((RollingBuffer.mk [1, 2, 0] 2 0 : RollingBuffer Nat).write_head < 3 ∧
        ((RollingBuffer.mk [1, 2, 0] 2 0 : RollingBuffer Nat).write_head + 1) % 3 =
          (RollingBuffer.mk [1, 2, 0] 2 0 : RollingBuffer Nat).read_head) ∧
      write 3 (RollingBuffer.mk [1, 2, 0] 2 0) 7 =
        (false, RollingBuffer.mk [1, 2, 0] 2 0) :=
  ⟨by decide, write_full_noop 3 (RollingBuffer.mk [1, 2, 0] 2 0) 7 (by decide) (by decide)⟩

/-- C4: reading with `read_head = write_head` returns "no value" and
mutates nothing; and after writing `k ≤ S - 1` values from empty and
reading exactly `k` times, arbitrarily many further reads all return
"no value" and leave the state unchanged. -/
theorem empty_read_idempotent (S : Nat) (d : T) (vs : List T) (m : Nat)
    (hS : 0 < S) (hlen : vs.length ≤ S - 1) :
    (∀ b : RollingBuffer T, b.read_head = b.write_head → read S b = (none, b)) ∧
      readN S m (readN S vs.length (writeAll S (new S d) vs).2).2 =
        (List.replicate m none, (readN S vs.length (writeAll S (new S d) vs).2).2) := by
  constructor
  · intro b h ; simp [read, h]
  · obtain ⟨h1, h2, _⟩ := writeAll_ok vs (new S d) rfl
      (show (new S d).write_head + vs.length < S by show 0 + vs.length < S ; omega)
    have hd := readN_drain vs.length (writeAll S (new S d) vs).2
      (by rw [h1, h2] ; simp [new])
      (by rw [h2] ; show 0 + vs.length < S ; omega)
    apply readN_empty
    rw [hd]
    show (writeAll S (new S d) vs).2.read_head + vs.length =
      (writeAll S (new S d) vs).2.write_head
    rw [h1, h2]
    simp [new]

/-- C4 witness: size 3, write two values, read twice, then two further
reads both return `none` and change nothing. -/
theorem empty_read_idempotent_witness :
    0 < 3 ∧ ([7, 8] : List Nat).length ≤ 3 - 1 ∧
      ((∀ b : RollingBuffer Nat, b.read_head = b.write_head → read 3 b = (none, b)) ∧
        readN 3 2 (readN 3 ([7, 8] : List Nat).length
            (writeAll 3 (new 3 (0 : Nat)) [7, 8]).2).2 =
          (List.replicate 2 none,
            (readN 3 ([7, 8] : List Nat).length
              (writeAll 3 (new 3 (0 : Nat)) [7, 8]).2).2)) :=
  ⟨by decide, by decide, empty_read_idempotent 3 0 [7, 8] 2 (by decide) (by decide)⟩

/-- C5: for `S ≥ 1`, every sequence of the four operations keeps both
cursors in `[0, S)`, and conversely every pair `(r, w) ∈ [0,S)²` is the
cursor pair of some reachable state. -/
theorem reachable_cursor_pairs (S : Nat) (d : T) (hS : 0 < S) :
    (∀ b : RollingBuffer T, Reachable S d b →
        b.read_head < S ∧ b.write_head < S) ∧
      (∀ r w : Nat, r < S → w < S →
        ∃ b : RollingBuffer T, Reachable S d b ∧ b.read_head = r ∧ b.write_head = w) := by
  constructor
  · intro b h
    obtain ⟨_, h1, h2⟩ := reachable_Inv hS h
    exact ⟨h1, h2⟩
  · intro r w hr hw
    have hA := wuN_heads S d r (new S d) (show (new S d).write_head < S from hS)
    have hA1 : (wuN S d r (new S d)).write_head = r := by
      rw [hA.1]
      show (0 + r) % S = r
      rw [Nat.zero_add, Nat.mod_eq_of_lt hr]
    have hA2 : (wuN S d r (new S d)).read_head = 0 := hA.2
    have hB := readN_drain r (wuN S d r (new S d))
      (by rw [hA1, hA2] ; omega) (by rw [hA1] ; exact hr)
    have hb2r : ((readN S r (wuN S d r (new S d))).2).read_head = r := by
      rw [hB]
      show (wuN S d r (new S d)).read_head + r = r
      rw [hA2]
      omega
    have hb2w : ((readN S r (wuN S d r (new S d))).2).write_head = r := by
      rw [hB]
      show (wuN S d r (new S d)).write_head = r
      exact hA1
    have hC := wuN_heads S d (if r ≤ w then w - r else S + w - r)
      ((readN S r (wuN S d r (new S d))).2) (by rw [hb2w] ; exact hr)
    refine ⟨wuN S d (if r ≤ w then w - r else S + w - r)
      ((readN S r (wuN S d r (new S d))).2), ?_, ?_, ?_⟩
    · exact wuN_reachable _ _
        (readN_reachable r _ (wuN_reachable r _ Reachable.init))
    · rw [hC.2, hb2r]
    · rw [hC.1, hb2w]
      split_ifs with h
      · have e : r + (w - r) = w := by omega
        rw [e, Nat.mod_eq_of_lt hw]
      · have e : r + (S + w - r) = S + w := by omega
        rw [e, Nat.add_mod_left, Nat.mod_eq_of_lt hw]

/-- C5 witness at `S = 2`. -/
theorem reachable_cursor_pairs_witness :
    0 < 2 ∧
      ((∀ b : RollingBuffer Nat, Reachable 2 0 b →
          b.read_head < 2 ∧ b.write_head < 2) ∧
        (∀ r w : Nat, r < 2 → w < 2 →
          ∃ b : RollingBuffer Nat, Reachable 2 0 b ∧
            b.read_head = r ∧ b.write_head = w)) :=
  ⟨by decide, reachable_cursor_pairs 2 0 (by decide)⟩

/-- C6 counterexample: the original claim says an overtaking
`write_unchecked` discards exactly the oldest not-yet-read element and
only that one. At `S = 3`: write `1` and `2` (both accepted, never read),
then one `write_unchecked 9`. Were only the oldest element (`1`)
discarded, the next read would return `2`; instead the write cursor lands
on the read cursor, the buffer tests as empty, and the read returns
`none` — the non-oldest element `2` was also made unobservable. -/
theorem unchecked_discard_counterexample :
    (write 3 (new 3 (0 : Nat)) 1).1 = true ∧
      (write 3 (write 3 (new 3 (0 : Nat)) 1).2 2).1 = true ∧
      (read 3 (write_unchecked 3 (write 3 (write 3 (new 3 (0 : Nat)) 1).2 2).2 9)).1 ≠
        some 2 ∧
      (read 3 (write_unchecked 3 (write 3 (write 3 (new 3 (0 : Nat)) 1).2 2).2 9)).1 =
        none := by
  decide

/-- C6 (amended): `write_unchecked` always stores the value at the current
write cursor slot and advances the write cursor by one (wrapping),
regardless of whether this overtakes the read cursor. When it is called
on a buffer that is not checked-full it discards nothing — the value is
simply appended to the observable contents; when it is called on a
checked-full buffer (holding `S - 1` unread elements) the advance lands
the write cursor on the read cursor and ALL unread elements become
unobservable in that single call, not just the oldest one. -/
theorem write_unchecked_effect (S : Nat) (b : RollingBuffer T) (v : T)
    (hlen : b.data.length = S) (hr : b.read_head < S) (hw : b.write_head < S) :
    (write_unchecked S b v).data = b.data.set b.write_head v ∧
      (write_unchecked S b v).write_head = increase_head S b.write_head ∧
      (write_unchecked S b v).read_head = b.read_head ∧
      (if bcount S b.read_head b.write_head = S - 1 then
          contents S (write_unchecked S b v) = []
        else
          contents S (write_unchecked S b v) = contents S b ++ [some v]) := by
  have hS : 0 < S := by omega
  refine ⟨rfl, rfl, rfl, ?_⟩
  split
  · next hfull =>
    have hinc : increase_head S b.write_head = b.read_head :=
      (full_iff hS hr hw).2 hfull
    exact contents_eq_nil (show (write_unchecked S b v).read_head < S from hr)
      (show increase_head S b.write_head < S from increase_head_lt hS hw)
      (show b.read_head = increase_head S b.write_head from hinc.symm)
  · next hnotfull =>
    have hne : increase_head S b.write_head ≠ b.read_head :=
      fun e => hnotfull ((full_iff hS hr hw).1 e)
    exact contents_write_concat hlen hr hw hne

/-- C6 amended witness: the checked-full size-3 state `([1,2,0], w=2, r=0)`
loses its whole contents to a single unchecked write. -/
theorem write_unchecked_effect_witness :
    ((RollingBuffer.mk [1, 2, 0] 2 0 : RollingBuffer Nat).data.length = 3 ∧
        (RollingBuffer.mk [1, 2, 0] 2 0 : RollingBuffer Nat).read_head < 3 ∧
        (RollingBuffer.mk [1, 2, 0] 2 0 : RollingBuffer Nat).write_head < 3) ∧
      ((write_unchecked 3 (RollingBuffer.mk [1, 2, 0] 2 0) 9).data =
          (RollingBuffer.mk [1, 2, 0] 2 0 : RollingBuffer Nat).data.set
            (RollingBuffer.mk [1, 2, 0] 2 0 : RollingBuffer Nat).write_head 9 ∧
        (write_unchecked 3 (RollingBuffer.mk [1, 2, 0] 2 0) 9).write_head =
          increase_head 3 (RollingBuffer.mk [1, 2, 0] 2 0 : RollingBuffer Nat).write_head ∧
        (write_unchecked 3 (RollingBuffer.mk [1, 2, 0] 2 0) 9).read_head =
          (RollingBuffer.mk [1, 2, 0] 2 0 : RollingBuffer Nat).read_head ∧
        (if bcount 3 (RollingBuffer.mk [1, 2, 0] 2 0 : RollingBuffer Nat).read_head
              (RollingBuffer.mk [1, 2, 0] 2 0 : RollingBuffer Nat).write_head = 3 - 1 then
            contents 3 (write_unchecked 3 (RollingBuffer.mk [1, 2, 0] 2 0) 9) = []
          else
            contents 3 (write_unchecked 3 (RollingBuffer.mk [1, 2, 0] 2 0) 9) =
              contents 3 (RollingBuffer.mk [1, 2, 0] 2 0) ++ [some 9])) :=
  ⟨⟨by decide, by decide, by decide⟩,
    write_unchecked_effect 3 (RollingBuffer.mk [1, 2, 0] 2 0) 9
      (by decide) (by decide) (by decide)⟩

/-- C7: from any checked-full state (`(write_head + 1) % S = read_head`,
holding `S - 1` unread elements), one `write_unchecked` advances the
write cursor onto the read cursor; the buffer then satisfies the
emptiness test, the immediately following read returns `none`, and the
observable contents are empty — all `S - 1` unread elements are gone. -/
theorem write_unchecked_on_full (S : Nat) (b : RollingBuffer T) (v : T)
    (hlen : b.data.length = S) (hr : b.read_head < S) (hw : b.write_head < S)
    (hfull : (b.write_head + 1) % S = b.read_head) :
    bcount S b.read_head b.write_head = S - 1 ∧
      (write_unchecked S b v).write_head = b.read_head ∧
      (write_unchecked S b v).read_head = (write_unchecked S b v).write_head ∧
      (read S (write_unchecked S b v)).1 = none ∧
      contents S (write_unchecked S b v) = [] := by
  have hS : 0 < S := by omega
  have hinc : increase_head S b.write_head = b.read_head := by
    rw [increase_head_eq_mod hw] ; exact hfull
  refine ⟨(full_iff hS hr hw).1 hinc, hinc, ?_, ?_, ?_⟩
  · show b.read_head = increase_head S b.write_head
    exact hinc.symm
  · simp [read, write_unchecked, hinc]
  · exact contents_eq_nil (show (write_unchecked S b v).read_head < S from hr)
      (show increase_head S b.write_head < S from increase_head_lt hS hw)
      (show b.read_head = increase_head S b.write_head from hinc.symm)

/-- C7 witness at the checked-full size-3 state `([1,2,0], w=2, r=0)`. -/
theorem write_unchecked_on_full_witness :
    ((RollingBuffer.mk [1, 2, 0] 2 0 : RollingBuffer Nat).data.length = 3 ∧
        (RollingBuffer.mk [1, 2, 0] 2 0 : RollingBuffer Nat).read_head < 3 ∧
        (RollingBuffer.mk [1, 2, 0] 2 0 : RollingBuffer Nat).write_head < 3 ∧
        ((RollingBuffer.mk [1, 2, 0] 2 0 : RollingBuffer Nat).write_head + 1) % 3 =
          (RollingBuffer.mk [1, 2, 0] 2 0 : RollingBuffer Nat).read_head) ∧
      (bcount 3 (RollingBuffer.mk [1, 2, 0] 2 0 : RollingBuffer Nat).read_head
          (RollingBuffer.mk [1, 2, 0] 2 0 : RollingBuffer Nat).write_head = 3 - 1 ∧
        (write_unchecked 3 (RollingBuffer.mk [1, 2, 0] 2 0) 9).write_head =
          (RollingBuffer.mk [1, 2, 0] 2 0 : RollingBuffer Nat).read_head ∧
        (write_unchecked 3 (RollingBuffer.mk [1, 2, 0] 2 0) 9).read_head =
          (write_unchecked 3 (RollingBuffer.mk [1, 2, 0] 2 0) 9).write_head ∧
        (read 3 (write_unchecked 3 (RollingBuffer.mk [1, 2, 0] 2 0) 9)).1 = none ∧
        contents 3 (write_unchecked 3 (RollingBuffer.mk [1, 2, 0] 2 0) 9) = []) :=
  ⟨⟨by decide, by decide, by decide, by decide⟩,
    write_unchecked_on_full 3 (RollingBuffer.mk [1, 2, 0] 2 0) 9
      (by decide) (by decide) (by decide) (by decide)⟩

/-- C8: `read_unchecked` is extensionally equal to `read`: on every state
they perform the same emptiness test, return the same result, and
produce the same successor state. -/
theorem read_unchecked_eq_read (S : Nat) (b : RollingBuffer T) :
    read_unchecked S b = read S b := rfl

/-- C9: each operation only ever mutates its own side's cursor: writes
never move the read cursor and touch no storage slot other than the one
written; reads never move the write cursor and never change storage. -/
theorem frame_conditions (S : Nat) (b : RollingBuffer T) (v : T) (i : Nat)
    (hi : i ≠ b.write_head) :
    (write S b v).2.read_head = b.read_head ∧
      (write_unchecked S b v).read_head = b.read_head ∧
      (write S b v).2.data[i]? = b.data[i]? ∧
      (write_unchecked S b v).data[i]? = b.data[i]? ∧
      (read S b).2.write_head = b.write_head ∧
      (read S b).2.data = b.data ∧
      (read_unchecked S b).2.write_head = b.write_head ∧
      (read_unchecked S b).2.data = b.data := by
  refine ⟨?_, rfl, ?_, ?_, ?_, ?_, ?_, ?_⟩
  · simp only [write] ; split <;> rfl
  · simp only [write] ; split
    · rfl
    · exact List.getElem?_set_ne (fun e => hi e.symm)
  · exact List.getElem?_set_ne (fun e => hi e.symm)
  · simp only [read] ; split <;> rfl
  · simp only [read] ; split <;> rfl
  · simp only [read_unchecked] ; split <;> rfl
  · simp only [read_unchecked] ; split <;> rfl

/-- C9 witness on the state `([5,6], w=0, r=1)` with untouched slot `1`. -/
theorem frame_conditions_witness :
    (1 ≠ (RollingBuffer.mk [5, 6] 0 1 : RollingBuffer Nat).write_head) ∧
      ((write 2 (RollingBuffer.mk [5, 6] 0 1) 7).2.read_head =
          (RollingBuffer.mk [5, 6] 0 1 : RollingBuffer Nat).read_head ∧
        (write_unchecked 2 (RollingBuffer.mk [5, 6] 0 1) 7).read_head =
          (RollingBuffer.mk [5, 6] 0 1 : RollingBuffer Nat).read_head ∧
        (write 2 (RollingBuffer.mk [5, 6] 0 1) 7).2.data[1]? =
          (RollingBuffer.mk [5, 6] 0 1 : RollingBuffer Nat).data[1]? ∧
        (write_unchecked 2 (RollingBuffer.mk [5, 6] 0 1) 7).data[1]? =
          (RollingBuffer.mk [5, 6] 0 1 : RollingBuffer Nat).data[1]? ∧
        (read 2 (RollingBuffer.mk [5, 6] 0 1)).2.write_head =
          (RollingBuffer.mk [5, 6] 0 1 : RollingBuffer Nat).write_head ∧
        (read 2 (RollingBuffer.mk [5, 6] 0 1)).2.data =
          (RollingBuffer.mk [5, 6] 0 1 : RollingBuffer Nat).data ∧
        (read_unchecked 2 (RollingBuffer.mk [5, 6] 0 1)).2.write_head =
          (RollingBuffer.mk [5, 6] 0 1 : RollingBuffer Nat).write_head ∧
        (read_unchecked 2 (RollingBuffer.mk [5, 6] 0 1)).2.data =
          (RollingBuffer.mk [5, 6] 0 1 : RollingBuffer Nat).data) :=
  ⟨by decide, frame_conditions 2 (RollingBuffer.mk [5, 6] 0 1) 7 1 (by decide)⟩

/-- C10: with `S ≥ 1`, in every state reachable from construction the
storage keeps length `S` and both cursors index strictly inside it, so
every storage access made by the four operations (`data[write_head]` in
the writes, `data[read_head]` in the reads) is in bounds and the
out-of-bounds branch is unreachable. -/
theorem reachable_no_oob (S : Nat) (d : T) (b : RollingBuffer T)
    (hS : 0 < S) (h : Reachable S d b) :
    b.data.length = S ∧ b.write_head < b.data.length ∧ b.read_head < b.data.length ∧
      (b.data[b.write_head]?).isSome ∧ (b.data[b.read_head]?).isSome := by
  obtain ⟨hlen, hr, hw⟩ := reachable_Inv hS h
  refine ⟨hlen, by omega, by omega, ?_, ?_⟩
  · rw [List.getElem?_eq_getElem (by omega)] ; rfl
  · rw [List.getElem?_eq_getElem (by omega)] ; rfl

/-- C10 witness at `S = 1` on the freshly constructed buffer. -/
theorem reachable_no_oob_witness :
    0 < 1 ∧ Reachable 1 (0 : Nat) (new 1 0) ∧
      ((new 1 (0 : Nat)).data.length = 1 ∧
        (new 1 (0 : Nat)).write_head < (new 1 (0 : Nat)).data.length ∧
        (new 1 (0 : Nat)).read_head < (new 1 (0 : Nat)).data.length ∧
        ((new 1 (0 : Nat)).data[(new 1 (0 : Nat)).write_head]?).isSome ∧
        ((new 1 (0 : Nat)).data[(new 1 (0 : Nat)).read_head]?).isSome) :=
  ⟨by decide, Reachable.init,
    reachable_no_oob 1 0 (new 1 0) (by decide) Reachable.init⟩

end RollingTB
